import Mathlib

/-!
Verification of the segmentation / reassembly / normalization pipeline of the
`ukrainian_accentor_transformer` package (class `Accentor` in
`src/ukrainian_accentor_transformer/__init__.py`).

Embedding conventions:
* a Token is a `String`; a tokenized sentence is a `List String`;
* a raw sentence is a `List Char` (Python `str` as a sequence of code points);
* Python list slices `l[a:b]` become `(l.drop a).take (b - a)` — both clamp;
* `sum(list_of_lists, [])` becomes a left fold of `++` over `[]` (`py_sum`);
* the external SentencePiece codec and the CTranslate2 engine are opaque
  collaborators, modelled as an `Engine` record of functions;
* Python exceptions (IndexError in `hypotheses[0]`, UnboundLocalError in
  `__call__`) are modelled with `Option` / `Except`.
-/

namespace Accentor

/-- Source: `split_tokens = set([".",",","!","?"])`. -/
def split_tokens : List String := [".", ",", "!", "?"]

/-- Loop body of `_split_sentence`: `cur` holds `tokenized[start_idx:i]`, the
tokens seen since the previous split point.  On a split token the current
segment is closed including that token (`tokenized[start_idx:idx]` with
`idx = i + 1`); the `for...else` clause unconditionally appends the trailing
remainder `tokenized[start_idx:]` (possibly empty) after the scan. -/
def split_sentence_go : List String → List String → List (List String)
  | [], cur => [cur]
  | t :: rest, cur =>
    if t ∈ split_tokens then (cur ++ [t]) :: split_sentence_go rest []
    else split_sentence_go rest (cur ++ [t])

/-- Source: `_split_sentence(tokenized)` — scan once, close a segment at every
split token, then always emit the trailing remainder. -/
def split_sentence (tokenized : List String) : List (List String) :=
  split_sentence_go tokenized []

/-- Source: `_split_long(tokenized_sentences)` — concatenate the per-sentence
segment lists and record each sentence's segment count in `join_list`. -/
def split_long : List (List String) → List (List String) × List Nat
  | [] => ([], [])
  | t :: ts =>
    let s := split_sentence t
    let p := split_long ts
    (s ++ p.1, s.length :: p.2)

/-- Python `sum(xss, [])`: a left fold of list concatenation over `[]`. -/
def py_sum {α : Type} (xss : List (List α)) : List α :=
  xss.foldl (fun a b => a ++ b) []

/-- Loop of `_join_long`: `idx` is `sentence_idx`; each step takes the slice
`splitted[idx : idx + n]` (Python slices clamp, as do `drop`/`take`) and
concatenates it with `sum(..., [])`. -/
def join_long_go (splitted : List (List String)) : List Nat → Nat → List (List String)
  | [], _ => []
  | n :: rest, idx =>
    py_sum ((splitted.drop idx).take n) :: join_long_go splitted rest (idx + n)

/-- Source: `_join_long(splitted_sentences, join_list)`. -/
def join_long (splitted_sentences : List (List String)) (join_list : List Nat) :
    List (List String) :=
  join_long_go splitted_sentences join_list 0

/-- Spec-side chunking (`refinement` counterpart of `_join_long`): walk the
counts in order, consuming that many leading elements from the remaining flat
sequence for each.  Written from the spec's words in §4.5. -/
def chunk {α : Type} : List α → List Nat → List (List α)
  | _, [] => []
  | h, n :: rest => h.take n :: chunk (h.drop n) rest

/-- The combining acute accent U+0301. -/
def stress_char : Char := '\u0301'

/-- Source: `sentence.replace("́","")` — removing every occurrence of a
one-character substring is exactly filtering that code point out. -/
def clean_sentence (s : List Char) : List Char :=
  s.filter (fun c => c ≠ stress_char)

/-- Source: `_clean_accents(sentences)`. -/
def clean_accents (sentences : List (List Char)) : List (List Char) :=
  sentences.map clean_sentence

/-- Source: `_run_config = {"repetition_penalty": 1.2, "max_batch_size": 8}`.
The repetition penalty is carried as an exact rational. -/
structure Run_Config where
  repetition_penalty : ℚ
  max_batch_size : Nat
deriving DecidableEq

/-- The fixed configuration map passed to every `translate_batch` call. -/
def run_config : Run_Config := ⟨1.2, 8⟩

/-- The external collaborators of `_accent`: the SentencePiece codec
(`sp.encode` / `sp.decode`, which map over a batch element-wise) and the
CTranslate2 engine (`model.translate_batch`, returning one ranked list of
hypotheses per submitted segment).  All are opaque to the core. -/
structure Engine where
  encode : List Char → List String
  translate_batch : Run_Config → List (List String) → List (List (List String))
  decode : List String → List Char

/-- Source: `[result.hypotheses[0] for result in results]` — takes the
top-ranked hypothesis of each result; `none` models the IndexError raised
when some result has no hypotheses. -/
def heads_of {α : Type} : List (List α) → Option (List α)
  | [] => some []
  | r :: rest =>
    match r.head? with
    | none => none
    | some h =>
      match heads_of rest with
      | none => none
      | some hs => some (h :: hs)

/-- Source: `_accent(sentences, symbol, mode)` — normalize, encode, split,
translate once, take top hypotheses, rejoin, decode.  `symbol` and `mode`
appear in the signature and are never read. -/
def accent (E : Engine) (sentences : List (List Char))
    (symbol mode : List Char) : Option (List (List Char)) :=
  let clean_sentences := clean_accents sentences
  let tokenized_sentences := clean_sentences.map E.encode
  let p := split_long tokenized_sentences
  let results := E.translate_batch run_config p.1
  match heads_of results with
  | none => none
  | some accented_tokens => some ((join_long accented_tokens p.2).map E.decode)

/-- The flat batch `_accent` submits to the inference boundary: the first
component of `_split_long` over the encoded, normalized sentences. -/
def flat_batch (E : Engine) (sentences : List (List Char)) : List (List String) :=
  (split_long ((clean_accents sentences).map E.encode)).1

/-- Instrumented copy of `accent` that also records every argument pair
(configuration, batch) passed to the inference boundary, in call order. -/
def accent_traced (E : Engine) (sentences : List (List Char))
    (symbol mode : List Char) :
    Option (List (List Char)) × List (Run_Config × List (List String)) :=
  let clean_sentences := clean_accents sentences
  let tokenized_sentences := clean_sentences.map E.encode
  let p := split_long tokenized_sentences
  let results := E.translate_batch run_config p.1
  let out :=
    match heads_of results with
    | none => none
    | some accented_tokens => some ((join_long accented_tokens p.2).map E.decode)
  (out, [(run_config, p.1)])

/-- A concrete engine used to instantiate theorems on closed inputs: the
codec packs each sentence into a single token and the engine returns each
segment unchanged as its sole hypothesis. -/
def sample_engine : Engine :=
  ⟨fun s => [String.mk s], fun _ b => b.map (fun x => [x]),
   fun ts => (ts.map String.toList).flatten⟩

/-- Like `sample_engine`, but every result carries an extra lower-ranked
hypothesis; its top-ranked hypotheses agree with those of `sample_engine`. -/
def sample_engine_alt : Engine :=
  ⟨fun s => [String.mk s], fun _ b => b.map (fun x => [x, ["alt"]]),
   fun ts => (ts.map String.toList).flatten⟩

/-- A Python value passed as the `sentence` argument of `__call__`: exactly a
`str`, exactly a `list`, or anything else (`type(x) is str` / `is list`
branching admits no third case). -/
inductive Py_Input : Type
  | str : List Char → Py_Input
  | list : List (List Char) → Py_Input
  | other : Py_Input

/-- The shape-matching return value of `__call__`. -/
inductive Py_Output : Type
  | str : List Char → Py_Output
  | list : List (List Char) → Py_Output
deriving DecidableEq

/-- Source: `__call__(sentence, symbol, mode)`.  For an input that is neither
exactly `str` nor exactly `list`, the local `sentences` is never assigned and
evaluating `self._accent(sentences=sentences, ...)` raises UnboundLocalError;
for a `str` input, `accented_sentences[0]` raises IndexError when the result
list is empty.  Exceptions are modelled as `Except.error`. -/
def call (E : Engine) (sentence : Py_Input) (symbol mode : List Char) :
    Except String Py_Output :=
  match sentence with
  | .str s =>
    match accent E [s] symbol mode with
    | none => .error "IndexError: hypotheses is empty"
    | some accented_sentences =>
      match accented_sentences.head? with
      | none => .error "IndexError: accented_sentences is empty"
      | some o => .ok (.str o)
  | .list l =>
    match accent E l symbol mode with
    | none => .error "IndexError: hypotheses is empty"
    | some accented_sentences => .ok (.list accented_sentences)
  | .other => .error "UnboundLocalError: local variable referenced before assignment"

section BasicLemmas

theorem split_sentence_go_ne_nil (t cur : List String) :
    split_sentence_go t cur ≠ [] := by
  induction t generalizing cur with
  | nil => simp [split_sentence_go]
  | cons x rest ih =>
    by_cases hx : x ∈ split_tokens
    · simp [split_sentence_go, hx]
    · simpa [split_sentence_go, hx] using ih (cur ++ [x])

theorem split_sentence_go_flatten (t cur : List String) :
    (split_sentence_go t cur).flatten = cur ++ t := by
  induction t generalizing cur with
  | nil => simp [split_sentence_go]
  | cons x rest ih =>
    by_cases hx : x ∈ split_tokens
    · simp [split_sentence_go, hx, ih]
    · simpa [split_sentence_go, hx] using ih (cur ++ [x])

theorem split_sentence_go_no_split (t cur : List String)
    (h : ∀ x ∈ t, x ∉ split_tokens) :
    split_sentence_go t cur = [cur ++ t] := by
  induction t generalizing cur with
  | nil => simp [split_sentence_go]
  | cons x rest ih =>
    have hx : x ∉ split_tokens := h x (by simp)
    have hrest : ∀ y ∈ rest, y ∉ split_tokens := fun y hy => h y (by simp [hy])
    simp [split_sentence_go, hx, ih (cur ++ [x]) hrest]

theorem split_sentence_flatten (t : List String) :
    (split_sentence t).flatten = t := by
  simpa [split_sentence] using split_sentence_go_flatten t []

theorem split_sentence_ne_nil (t : List String) :
    split_sentence t ≠ [] :=
  split_sentence_go_ne_nil t []

end BasicLemmas

section JoinLemmas

theorem py_sum_eq_flatten {α : Type} (xss : List (List α)) :
    py_sum xss = xss.flatten := by
  have haux : ∀ (xss : List (List α)) (acc : List α),
      xss.foldl (fun a b => a ++ b) acc = acc ++ xss.flatten := by
    intro xss
    induction xss with
    | nil => simp
    | cons x rest ih => intro acc; simp [List.foldl_cons, ih, List.append_assoc]
  simpa [py_sum] using haux xss []

theorem join_long_go_eq_chunk (c : List Nat) (splitted : List (List String)) (idx : Nat) :
    join_long_go splitted c idx = (chunk (splitted.drop idx) c).map py_sum := by
  induction c generalizing idx with
  | nil => simp [join_long_go, chunk]
  | cons n rest ih =>
    simp only [join_long_go, chunk, List.map_cons]
    rw [ih (idx + n), List.drop_drop]

theorem join_long_eq_chunk (h : List (List String)) (c : List Nat) :
    join_long h c = (chunk h c).map py_sum := by
  simpa [join_long] using join_long_go_eq_chunk c h 0

theorem chunk_length {α : Type} (h : List α) (c : List Nat) :
    (chunk h c).length = c.length := by
  induction c generalizing h with
  | nil => simp [chunk]
  | cons n rest ih => simp [chunk, ih]

theorem join_long_length (h : List (List String)) (c : List Nat) :
    (join_long h c).length = c.length := by
  rw [join_long_eq_chunk, List.length_map, chunk_length]

theorem chunk_flatten_of_sum {α : Type} (h : List α) (c : List Nat)
    (hs : c.sum = h.length) : (chunk h c).flatten = h := by
  induction c generalizing h with
  | nil =>
    have : h.length = 0 := by simpa using hs.symm
    simp [chunk, List.length_eq_zero.mp this]
  | cons n rest ih =>
    have hn : n ≤ h.length := by
      have : n + rest.sum = h.length := by simpa [List.sum_cons] using hs
      omega
    have hdrop : rest.sum = (h.drop n).length := by
      have : n + rest.sum = h.length := by simpa [List.sum_cons] using hs
      simp only [List.length_drop]
      omega
    simp [chunk, List.flatten_cons, ih (h.drop n) hdrop, List.take_append_drop]

theorem chunk_flatten_lengths {α : Type} (xss : List (List α)) :
    chunk xss.flatten (xss.map List.length) = xss := by
  induction xss with
  | nil => simp [chunk]
  | cons x rest ih =>
    simp [chunk, List.take_left, List.drop_left, ih]

theorem chunk_get (c : List Nat) {α : Type} (h : List α) (i : Nat) (n : Nat)
    (hc : c.get? i = some n) :
    (chunk h c).get? i = some ((h.drop (c.take i).sum).take n) := by
  induction c generalizing h i with
  | nil => simp at hc
  | cons m rest ih =>
    cases i with
    | zero =>
      simp at hc
      simp [chunk, hc]
    | succ j =>
      simp only [List.get?_cons_succ] at hc
      simp only [chunk, List.get?_cons_succ, List.take_succ_cons, List.sum_cons]
      rw [ih (h.drop m) j hc, List.drop_drop]

theorem split_long_fst (ts : List (List String)) :
    (split_long ts).1 = (ts.map split_sentence).flatten := by
  induction ts with
  | nil => simp [split_long]
  | cons t rest ih => simp [split_long, ih]

theorem split_long_snd (ts : List (List String)) :
    (split_long ts).2 = ts.map (fun t => (split_sentence t).length) := by
  induction ts with
  | nil => simp [split_long]
  | cons t rest ih => simp [split_long, ih]

theorem split_long_sum (ts : List (List String)) :
    (split_long ts).2.sum = (split_long ts).1.length := by
  rw [split_long_fst, split_long_snd, List.length_flatten]
  rw [List.map_map]
  rfl

end JoinLemmas

section HeadsLemmas

theorem heads_of_of_ne_nil {α : Type} (d : α) (rs : List (List α))
    (h : ∀ r ∈ rs, r ≠ []) :
    heads_of rs = some (rs.map (fun r => r.headD d)) := by
  induction rs with
  | nil => simp [heads_of]
  | cons r rest ih =>
    have hr : r ≠ [] := h r (by simp)
    have hrest : ∀ x ∈ rest, x ≠ [] := fun x hx => h x (by simp [hx])
    obtain ⟨a, tl, rfl⟩ := List.exists_cons_of_ne_nil hr
    simp [heads_of, ih hrest]

theorem heads_of_length {α : Type} (rs : List (List α)) (hs : List α)
    (h : heads_of rs = some hs) : hs.length = rs.length := by
  induction rs generalizing hs with
  | nil => simp [heads_of] at h; simp [← h]
  | cons r rest ih =>
    simp only [heads_of] at h
    cases hr : r.head? with
    | none => rw [hr] at h; simp at h
    | some a =>
      rw [hr] at h
      cases hrest : heads_of rest with
      | none => rw [hrest] at h; simp at h
      | some tl =>
        rw [hrest] at h
        simp only [Option.some.injEq] at h
        subst h
        simp [ih tl hrest]

theorem heads_of_congr {α : Type} (rs1 rs2 : List (List α))
    (h : rs1.map List.head? = rs2.map List.head?) :
    heads_of rs1 = heads_of rs2 := by
  induction rs1 generalizing rs2 with
  | nil =>
    cases rs2 with
    | nil => rfl
    | cons b l2 => simp at h
  | cons a l1 ih =>
    cases rs2 with
    | nil => simp at h
    | cons b l2 =>
      simp only [List.map_cons, List.cons.injEq] at h
      simp [heads_of, h.1, ih l2 h.2]

end HeadsLemmas

section ClaimC1

/-- C1: for every token sequence `t`, `_split_sentence` returns at least one
segment and concatenating all returned segments in order reproduces `t`
exactly; a `t` with no split tokens yields exactly one segment equal to `t`,
and an empty `t` yields exactly one empty segment. -/
theorem split_sentence_coverage :
    ∀ t : List String,
      1 ≤ (split_sentence t).length ∧
      (split_sentence t).flatten = t ∧
      ((∀ x ∈ t, x ∉ split_tokens) → split_sentence t = [t]) ∧
      (t = [] → split_sentence t = [[]]) := by
  intro t
  refine ⟨?_, split_sentence_flatten t, ?_, ?_⟩
  · exact List.length_pos.mpr (split_sentence_ne_nil t)
  · intro h
    simpa [split_sentence] using split_sentence_go_no_split t [] h
  · intro h; subst h; rfl

theorem split_sentence_coverage_witness :
    split_sentence ["Привіт", "хлопче"] = [["Привіт", "хлопче"]] ∧
    split_sentence [] = [[]] :=
  ⟨(split_sentence_coverage ["Привіт", "хлопче"]).2.2.1 (by decide),
   (split_sentence_coverage []).2.2.2 rfl⟩

end ClaimC1

section ClaimC2

/-- C2: reassembly is the inverse of segmentation — for every token sequence
`t`, `_join_long (_split_sentence t) [count]` returns `[t]`, and for every
list of token sequences, `_join_long` applied to the output of `_split_long`
returns the original list. -/
theorem join_mirrors_split :
    (∀ t : List String,
       join_long (split_sentence t) [(split_sentence t).length] = [t]) ∧
    (∀ ts : List (List String),
       join_long (split_long ts).1 (split_long ts).2 = ts) := by
  constructor
  · intro t
    rw [join_long_eq_chunk]
    simp [chunk, py_sum_eq_flatten, split_sentence_flatten]
  · intro ts
    rw [join_long_eq_chunk, split_long_fst, split_long_snd]
    have hlen : ts.map (fun t => (split_sentence t).length)
        = (ts.map split_sentence).map List.length := by
      rw [List.map_map]; rfl
    rw [hlen, chunk_flatten_lengths, List.map_map]
    have hid : ∀ t ∈ ts, (py_sum ∘ split_sentence) t = t := by
      intro t _
      simp [Function.comp, py_sum_eq_flatten, split_sentence_flatten]
    rw [List.map_congr_left hid]
    simp

end ClaimC2

section ClaimC3

/-- C3: for every flat hypothesis list and counts with `sum counts = length
hyps`, `_join_long` returns exactly `length counts` sentences; sentence `i`
is the separator-free concatenation of the `counts[i]` consecutive hypotheses
at offset `sum (counts.take i)`, and every hypothesis is consumed exactly
once, in order, with none left over. -/
theorem join_long_consumes_exactly :
    ∀ (hyps : List (List String)) (counts : List Nat),
      counts.sum = hyps.length →
      (join_long hyps counts).length = counts.length ∧
      join_long hyps counts = (chunk hyps counts).map py_sum ∧
      (chunk hyps counts).flatten = hyps ∧
      (∀ i n, counts.get? i = some n →
        (chunk hyps counts).get? i =
          some ((hyps.drop (counts.take i).sum).take n)) :=
  fun hyps counts hs =>
    ⟨join_long_length hyps counts, join_long_eq_chunk hyps counts,
     chunk_flatten_of_sum hyps counts hs,
     fun i n hc => chunk_get counts hyps i n hc⟩

theorem join_long_consumes_exactly_witness :
    (join_long [["a"], ["b"], ["c"]] [2, 1]).length = 2 ∧
    (chunk [["a"], ["b"], ["c"]] [2, 1]).flatten = [["a"], ["b"], ["c"]] :=
  ⟨(join_long_consumes_exactly [["a"], ["b"], ["c"]] [2, 1] (by decide)).1,
   (join_long_consumes_exactly [["a"], ["b"], ["c"]] [2, 1] (by decide)).2.2.1⟩

end ClaimC3

section ClaimC5

/-- C5: `_clean_accents` removes every occurrence of U+0301 from every
sentence without altering any other character (each output is a sublist of
the input preserving the count of every non-stress character), preserves
sentence order and count, is idempotent, and its output contains no U+0301. -/
theorem clean_accents_normalizer :
    ∀ ss : List (List Char),
      (clean_accents ss).length = ss.length ∧
      clean_accents (clean_accents ss) = clean_accents ss ∧
      (∀ s ∈ clean_accents ss, stress_char ∉ s) ∧
      (∀ i s, ss.get? i = some s →
        (clean_accents ss).get? i = some (clean_sentence s) ∧
        (clean_sentence s).Sublist s ∧
        stress_char ∉ clean_sentence s ∧
        (∀ c, c ≠ stress_char → (clean_sentence s).count c = s.count c)) := by
  intro ss
  refine ⟨by simp [clean_accents], ?_, ?_, ?_⟩
  · simp only [clean_accents, List.map_map]
    refine List.map_congr_left ?_
    intro s _
    simp [Function.comp, clean_sentence, List.filter_filter]
  · intro s hs
    simp only [clean_accents, List.mem_map] at hs
    obtain ⟨u, _, rfl⟩ := hs
    simp [clean_sentence, List.mem_filter]
  · intro i s hi
    refine ⟨?_, List.filter_sublist s, ?_, ?_⟩
    · rw [List.get?_eq_getElem?] at hi ⊢
      simp [clean_accents, List.getElem?_map, hi]
    · simp [clean_sentence, List.mem_filter]
    · intro c hc
      exact List.count_filter (by simpa using hc)

theorem clean_accents_normalizer_witness :
    (clean_accents [['П', '\u0301', 'а']]).get? 0 = some (clean_sentence ['П', '\u0301', 'а']) ∧
    (clean_sentence ['П', '\u0301', 'а']).count 'а' = (['П', '\u0301', 'а'] : List Char).count 'а' :=
  ⟨((clean_accents_normalizer [['П', '\u0301', 'а']]).2.2.2 0 ['П', '\u0301', 'а'] rfl).1,
   ((clean_accents_normalizer [['П', '\u0301', 'а']]).2.2.2 0 ['П', '\u0301', 'а'] rfl).2.2.2
     'а' (by decide)⟩

end ClaimC5

section ClaimC6

/-- C6 counterexample: with `counts = [1]` against three hypotheses the sums
mismatch, yet `_join_long` returns the normal result `[["a"]]` — exactly
`len(counts)` sentences built from only part of the hypotheses, with no
error signalled. -/
theorem join_long_mismatch_counterexample :
    ([1] : List Nat).sum ≠ ([["a"], ["b"], ["c"]] : List (List String)).length ∧
    join_long [["a"], ["b"], ["c"]] [1] = [["a"]] := by
  constructor
  · decide
  · rfl

/-- C6 amended: `_join_long` performs no consistency check at all — for every
hypothesis list and every counts list (matching or not) it returns a normal
result of exactly `len(counts)` sentences formed from clamped slices, so a
mismatch is silently truncated or padded-down, never signalled. -/
theorem join_long_no_mismatch_check :
    ∀ (hyps : List (List String)) (counts : List Nat),
      (join_long hyps counts).length = counts.length ∧
      join_long hyps counts = (chunk hyps counts).map py_sum :=
  fun h c => ⟨join_long_length h c, join_long_eq_chunk h c⟩

end ClaimC6

section ClaimC7

/-- C7: the public parameters `symbol` and `mode` are inert — for every
engine, every input, and any two assignments of the pair, `__call__` returns
identical results, a two-run noninterference statement. -/
theorem symbol_mode_inert :
    ∀ (E : Engine) (sentence : Py_Input) (symbol1 mode1 symbol2 mode2 : List Char),
      call E sentence symbol1 mode1 = call E sentence symbol2 mode2 := by
  intro E sentence s1 m1 s2 m2
  cases sentence <;> rfl

end ClaimC7

section ClaimC9

/-- C9: an input that is neither exactly a `str` nor exactly a `list` makes
`__call__` signal an error (the UnboundLocalError raised when the unassigned
local `sentences` is read) instead of coercing the input or returning a
result. -/
theorem non_str_non_list_errors :
    ∀ (E : Engine) (symbol mode : List Char),
      call E Py_Input.other symbol mode =
        Except.error "UnboundLocalError: local variable referenced before assignment" :=
  fun _ _ _ => rfl

end ClaimC9

section ClaimC10

theorem split_sentence_go_shape (t cur : List String)
    (hcur : ∀ x ∈ cur, x ∉ split_tokens) :
    (∀ seg ∈ (split_sentence_go t cur).dropLast,
       seg.countP (fun x => decide (x ∈ split_tokens)) = 1 ∧
       ∃ x, seg.getLast? = some x ∧ x ∈ split_tokens) ∧
    (∀ seg, (split_sentence_go t cur).getLast? = some seg →
       ∀ x ∈ seg, x ∉ split_tokens) := by
  induction t generalizing cur with
  | nil =>
    constructor
    · simp [split_sentence_go]
    · intro seg hseg
      simp only [split_sentence_go, List.getLast?_singleton, Option.some.injEq] at hseg
      subst hseg
      exact hcur
  | cons a rest ih =>
    by_cases ha : a ∈ split_tokens
    · have hrec := ih [] (by simp)
      obtain ⟨b, L', hL⟩ := List.exists_cons_of_ne_nil (split_sentence_go_ne_nil rest [])
      constructor
      · intro seg hseg
        rw [split_sentence_go, if_pos ha, hL, List.dropLast_cons₂, List.mem_cons] at hseg
        rcases hseg with hseg | hseg
        · subst hseg
          refine ⟨?_, a, List.getLast?_concat cur, ha⟩
          rw [List.countP_append, List.countP_eq_zero.mpr ?_, Nat.zero_add]
          · simp [List.countP_cons, ha]
          · intro x hx
            simpa using hcur x hx
        · exact (hrec.1 seg (hL ▸ hseg))
      · intro seg hseg
        rw [split_sentence_go, if_pos ha, hL, List.getLast?_cons_cons] at hseg
        exact hrec.2 seg (hL ▸ hseg)
    · have hcur2 : ∀ x ∈ cur ++ [a], x ∉ split_tokens := by
        intro x hx
        rcases List.mem_append.mp hx with hx | hx
        · exact hcur x hx
        · simpa using (List.mem_singleton.mp hx) ▸ ha
      have hrec := ih (cur ++ [a]) hcur2
      rw [split_sentence_go, if_neg ha]
      exact hrec

theorem split_sentence_go_trailing (t : List String) (x : String)
    (hx : t.getLast? = some x) (hsplit : x ∈ split_tokens) :
    ∀ cur, (split_sentence_go t cur).getLast? = some [] := by
  induction t with
  | nil => simp at hx
  | cons a rest ih =>
    intro cur
    cases rest with
    | nil =>
      simp only [List.getLast?_singleton, Option.some.injEq] at hx
      subst hx
      rw [split_sentence_go, if_pos hsplit]
      rfl
    | cons b rest' =>
      rw [List.getLast?_cons_cons] at hx
      by_cases ha : a ∈ split_tokens
      · rw [split_sentence_go, if_pos ha]
        obtain ⟨c, L', hL⟩ :=
          List.exists_cons_of_ne_nil (split_sentence_go_ne_nil (b :: rest') [])
        rw [hL, List.getLast?_cons_cons, ← hL]
        exact ih hx []
      · rw [split_sentence_go, if_neg ha]
        exact ih hx (cur ++ [a])

/-- C10: every segment of `_split_sentence` contains at most one split token;
every segment except the last ends with exactly one split token as its final
element; the final segment contains no split token; and a token sequence
ending in a split token produces a trailing empty final segment. -/
theorem segment_shape_invariant :
    ∀ t : List String,
      (∀ seg ∈ split_sentence t,
         seg.countP (fun x => decide (x ∈ split_tokens)) ≤ 1) ∧
      (∀ seg ∈ (split_sentence t).dropLast,
         seg.countP (fun x => decide (x ∈ split_tokens)) = 1 ∧
         ∃ x, seg.getLast? = some x ∧ x ∈ split_tokens) ∧
      (∀ seg, (split_sentence t).getLast? = some seg →
         seg.countP (fun x => decide (x ∈ split_tokens)) = 0) ∧
      (∀ x, t.getLast? = some x → x ∈ split_tokens →
         (split_sentence t).getLast? = some []) := by
  intro t
  have hshape := split_sentence_go_shape t [] (by simp)
  have hlast : ∀ seg, (split_sentence t).getLast? = some seg →
      seg.countP (fun x => decide (x ∈ split_tokens)) = 0 := by
    intro seg hseg
    exact List.countP_eq_zero.mpr fun x hx => by
      simpa using hshape.2 seg hseg x hx
  refine ⟨?_, hshape.1, hlast, ?_⟩
  · intro seg hseg
    have hne := split_sentence_ne_nil t
    rw [← List.dropLast_append_getLast hne, List.mem_append] at hseg
    rcases hseg with hseg | hseg
    · exact le_of_eq (hshape.1 seg hseg).1
    · have : seg = (split_sentence t).getLast hne := List.mem_singleton.mp hseg
      subst this
      rw [hlast _ (List.getLast?_eq_getLast _ hne)]
      exact Nat.zero_le 1
  · intro x hx hsplit
    exact split_sentence_go_trailing t x hx hsplit []

theorem segment_shape_invariant_witness :
    ((["привіт", ","] : List String).countP
       (fun x => decide (x ∈ split_tokens)) = 1 ∧
     ∃ x, (["привіт", ","] : List String).getLast? = some x ∧ x ∈ split_tokens) ∧
    (split_sentence ["як", "справи", "."]).getLast? = some [] :=
  ⟨(segment_shape_invariant ["привіт", ",", "як"]).2.1 ["привіт", ","] (by decide),
   (segment_shape_invariant ["як", "справи", "."]).2.2.2 "." (by decide) (by decide)⟩

end ClaimC10

section ClaimC8

/-- C8: per `_accent` invocation the inference boundary is invoked exactly
once (the instrumented pipeline records a one-element trace, and its result
agrees with `accent`), the submitted flat batch is the concatenation of all
segments in sentence order then segment order, the configuration is the fixed
`{repetition_penalty: 1.2, max_batch_size: 8}`, and only the top-ranked
hypothesis of each result is consumed: two engines whose ranked outputs agree
on heads produce identical accent results. -/
theorem inference_call_convention :
    (∀ (E : Engine) (sentences : List (List Char)) (symbol mode : List Char),
       accent_traced E sentences symbol mode =
         (accent E sentences symbol mode, [(run_config, flat_batch E sentences)])) ∧
    (∀ ts : List (List String),
       (split_long ts).1 = (ts.map split_sentence).flatten) ∧
    (run_config.repetition_penalty = 1.2 ∧ run_config.max_batch_size = 8) ∧
    (∀ (E1 E2 : Engine) (sentences : List (List Char)) (symbol mode : List Char),
       E1.encode = E2.encode → E1.decode = E2.decode →
       (E1.translate_batch run_config (flat_batch E1 sentences)).map List.head? =
         (E2.translate_batch run_config (flat_batch E2 sentences)).map List.head? →
       accent E1 sentences symbol mode = accent E2 sentences symbol mode) := by
  refine ⟨?_, split_long_fst, ⟨rfl, rfl⟩, ?_⟩
  · intro E sentences symbol mode
    rfl
  · intro E1 E2 sentences symbol mode henc hdec hheads
    have h2 : heads_of (E1.translate_batch run_config (flat_batch E1 sentences)) =
        heads_of (E2.translate_batch run_config (flat_batch E2 sentences)) :=
      heads_of_congr _ _ hheads
    unfold flat_batch at h2
    rw [henc] at h2
    simp only [accent]
    rw [henc, hdec, h2]

end ClaimC8

theorem inference_call_convention_witness :
    accent sample_engine [['а', 'б']] [] [] =
      accent sample_engine_alt [['а', 'б']] [] [] :=
  inference_call_convention.2.2.2 sample_engine sample_engine_alt
    [['а', 'б']] [] [] rfl rfl (by decide)

section ClaimC4

theorem chunk_map_flatten {α β : Type} (g : α → β) (xss : List (List α)) :
    chunk (xss.flatten.map g) (xss.map List.length) = xss.map (List.map g) := by
  induction xss with
  | nil => simp [chunk]
  | cons x rest ih =>
    simp only [List.flatten_cons, List.map_cons, List.map_append, chunk]
    rw [List.take_left' (by simp), List.drop_left' (by simp), ih]

theorem accent_shape (E : Engine)
    (Hne : ∀ b r, r ∈ E.translate_batch run_config b → r ≠ [])
    (l : List (List Char)) (symbol mode : List Char) :
    ∃ outs, accent E l symbol mode = some outs ∧ outs.length = l.length := by
  have hne : ∀ r ∈ E.translate_batch run_config
      (split_long ((clean_accents l).map E.encode)).1, r ≠ [] :=
    fun r hr => Hne _ r hr
  have hheads := heads_of_of_ne_nil ([] : List String) _ hne
  refine ⟨(join_long ((E.translate_batch run_config
      (split_long ((clean_accents l).map E.encode)).1).map (fun r => r.headD []))
      (split_long ((clean_accents l).map E.encode)).2).map E.decode, ?_, ?_⟩
  · simp only [accent, hheads]
  · rw [List.length_map, join_long_length, split_long_snd, List.length_map]
    simp [clean_accents]

theorem accent_elementwise (E : Engine) (f : List String → List (List String))
    (hf : ∀ b, E.translate_batch run_config b = b.map f)
    (hfne : ∀ x, f x ≠ [])
    (l : List (List Char)) (symbol mode : List Char) :
    accent E l symbol mode =
      some (l.map (fun s => E.decode (py_sum
        ((split_sentence (E.encode (clean_sentence s))).map
          (fun x => (f x).headD []))))) := by
  have hne : ∀ r ∈ E.translate_batch run_config
      (split_long ((clean_accents l).map E.encode)).1, r ≠ [] := by
    intro r hr
    rw [hf] at hr
    obtain ⟨x, _, rfl⟩ := List.mem_map.mp hr
    exact hfne x
  have hheads := heads_of_of_ne_nil ([] : List String) _ hne
  simp only [accent, hheads, Option.some.injEq]
  rw [hf, List.map_map, split_long_fst, split_long_snd, join_long_eq_chunk]
  have hcounts : ((clean_accents l).map E.encode).map
        (fun t => (split_sentence t).length) =
      (((clean_accents l).map E.encode).map split_sentence).map List.length := by
    simp [List.map_map, Function.comp]
  rw [hcounts, chunk_map_flatten]
  simp only [clean_accents, List.map_map]
  refine List.map_congr_left ?_
  intro a _
  rfl

/-- C4: the façade preserves input shape — if the collaborators are
length-preserving (one result per segment) and every result carries at least
one hypothesis, `__call__` on a list of `n` sentences returns a list of
exactly `n` accented sentences, and on a single string returns the single
string that `__call__` on the one-element list would return; moreover when the
engine acts element-wise the `i`-th output is exactly the accented form of
the `i`-th input sentence. -/
theorem call_shape_preservation :
    ∀ E : Engine,
      (∀ b, (E.translate_batch run_config b).length = b.length) →
      (∀ b r, r ∈ E.translate_batch run_config b → r ≠ []) →
      ((∀ l symbol mode, ∃ outs,
          call E (.list l) symbol mode = .ok (.list outs) ∧
          outs.length = l.length) ∧
       (∀ s symbol mode, ∃ o,
          call E (.str s) symbol mode = .ok (.str o) ∧
          call E (.list [s]) symbol mode = .ok (.list [o])) ∧
       (∀ f, (∀ b, E.translate_batch run_config b = b.map f) →
          ∀ l symbol mode i s, l.get? i = some s →
            ∃ outs o, accent E l symbol mode = some outs ∧
              accent E [s] symbol mode = some [o] ∧
              outs.get? i = some o)) := by
  intro E _ Hne
  refine ⟨?_, ?_, ?_⟩
  · intro l symbol mode
    obtain ⟨outs, ho, hlen⟩ := accent_shape E Hne l symbol mode
    exact ⟨outs, by simp [call, ho], hlen⟩
  · intro s symbol mode
    obtain ⟨outs, ho, hlen⟩ := accent_shape E Hne [s] symbol mode
    obtain ⟨o, rfl⟩ := List.length_eq_one.mp hlen
    exact ⟨o, by simp [call, ho], by simp [call, ho]⟩
  · intro f hf l symbol mode i s hi
    have hfne : ∀ x, f x ≠ [] := fun x =>
      Hne [x] (f x) (by rw [hf]; simp)
    refine ⟨_, E.decode (py_sum ((split_sentence (E.encode (clean_sentence s))).map
        (fun x => (f x).headD []))),
      accent_elementwise E f hf hfne l symbol mode, ?_, ?_⟩
    · rw [accent_elementwise E f hf hfne [s] symbol mode]
      simp
    · rw [List.get?_eq_getElem?] at hi
      simp [List.getElem?_map, hi]

theorem call_shape_preservation_witness :
    ∃ outs, call sample_engine (.list [['п'], ['а']]) [] [] =
      .ok (.list outs) ∧ outs.length = 2 :=
  (call_shape_preservation sample_engine
    (by intro b; simp [sample_engine])
    (by intro b r hr
        simp only [sample_engine, List.mem_map] at hr
        obtain ⟨x, _, rfl⟩ := hr
        simp)).1 [['п'], ['а']] [] []

end ClaimC4

end Accentor
